import Mathlib

/-!
Verification development for the Integratedvideoeditor repository.

We shallowly embed the program's core algorithms over the rationals:
* the segment-based timeline compilation of `export_with_effects`
  (backend/app.py, lines 250-299) — breakpoints, segments, active-zoom
  resolution and active-overlay resolution;
* the crop geometry emitted by `export_with_effects` (backend/app.py,
  lines 315-320) and by `build_zoom_filter` (server.py, lines 92-109),
  in fractional frame coordinates (the Python code writes the same
  expressions scaled by the symbolic frame size `iw`/`ih`);
* the click clustering of `cluster_clicks` (backend/sak_enhanced.py,
  lines 204-222).

Python floats are modelled as rationals; Python's stable `sorted` is
modelled by `List.insertionSort`, which is stable and agrees with any
stable sort on a totally preordered key.
-/

namespace IVE

/-- A zoom effect record as consumed by `export_with_effects`:
`{startTime, endTime, x, y, scale}` with `x`,`y` focal percentages. -/
structure ZoomEffect where
  startTime : ℚ
  endTime : ℚ
  x : ℚ
  y : ℚ
  scale : ℚ
  deriving DecidableEq, Repr

/-- A text overlay record: `{startTime, endTime, x, y, text}` (styling
fields are irrelevant to the claims and omitted). -/
structure TextOverlay where
  startTime : ℚ
  endTime : ℚ
  x : ℚ
  y : ℚ
  text : String
  deriving DecidableEq, Repr

/-- The zoom parameters a segment carries: the fields of the zoom dict
that the filter-building code reads (`zoom.get('scale'/'x'/'y')`). -/
structure ZoomSpec where
  x : ℚ
  y : ℚ
  scale : ℚ
  deriving DecidableEq, Repr

/-- The zoom parameters of a zoom effect. -/
def ZoomEffect.toSpec (z : ZoomEffect) : ZoomSpec :=
  ⟨z.x, z.y, z.scale⟩

/-- The default zoom `{'x': 50, 'y': 50, 'scale': 1.0}` assigned when no
zoom effect covers a segment (app.py line 284). -/
def defaultZoom : ZoomSpec := ⟨50, 50, 1⟩

/-- One render segment: `{'start', 'end', 'zoom', 'overlays'}`
(app.py lines 294-299). -/
structure Segment where
  startTime : ℚ
  endTime : ℚ
  zoom : ZoomSpec
  overlays : List TextOverlay
  deriving DecidableEq, Repr

/-- The breakpoint list of app.py lines 252-259: the set
`{0, duration}` together with every start/end of every zoom effect and
text overlay, filtered to `[0, duration]` and sorted ascending.
The Python `set` is modelled by `List.dedup`. -/
def changePoints (duration : ℚ) (zs : List ZoomEffect) (os : List TextOverlay) : List ℚ :=
  (((0 :: duration ::
      (zs.flatMap (fun z => [z.startTime, z.endTime]) ++
       os.flatMap (fun o => [o.startTime, o.endTime]))).dedup).filter
    (fun t => decide (0 ≤ t ∧ t ≤ duration))).insertionSort (· ≤ ·)

/-- One iteration of the active-zoom loop of app.py lines 270-280: the
state is `(active_zoom, max_coverage)`; a zoom effect updates the state
when its overlap with the segment is positive and strictly exceeds the
running maximum coverage. -/
def zoomStep (a b : ℚ) (st : Option ZoomEffect × ℚ) (z : ZoomEffect) :
    Option ZoomEffect × ℚ :=
  let overlapStart := max a z.startTime
  let overlapEnd := min b z.endTime
  if overlapStart < overlapEnd then
    let coverage := overlapEnd - overlapStart
    if st.2 < coverage then (some z, coverage) else st
  else st

/-- The active zoom of segment `[a,b)` (app.py lines 267-284): run the
coverage loop from `(None, 0)`; if no effect was selected, use
`defaultZoom`. -/
def findActiveZoom (a b : ℚ) (zs : List ZoomEffect) : ZoomSpec :=
  match (zs.foldl (zoomStep a b) (none, 0)).1 with
  | some z => z.toSpec
  | none => defaultZoom

/-- The active overlays of segment `[a,b]` (app.py lines 287-292):
overlays satisfying `o_start <= seg_end and o_end >= seg_start`, kept in
input order. -/
def findActiveOverlays (a b : ℚ) (os : List TextOverlay) : List TextOverlay :=
  os.filter (fun o => decide (o.startTime ≤ b ∧ a ≤ o.endTime))

/-- The segment-building loop of app.py lines 262-299: one segment per
adjacent pair of breakpoints. -/
def mkSegments (zs : List ZoomEffect) (os : List TextOverlay) : List ℚ → List Segment
  | a :: b :: rest =>
      { startTime := a, endTime := b,
        zoom := findActiveZoom a b zs,
        overlays := findActiveOverlays a b os } :: mkSegments zs os (b :: rest)
  | _ => []

/-- The whole timeline compilation of `export_with_effects`
(app.py lines 250-299). -/
def compile (duration : ℚ) (zs : List ZoomEffect) (os : List TextOverlay) :
    List Segment :=
  mkSegments zs os (changePoints duration zs os)

/-- The validation actually performed by the endpoint before compiling
(app.py line 237): `if not video_b64 or not duration` rejects the
request.  For a float, `not duration` is true exactly when
`duration == 0.0`; no other check on `duration` or on effect/overlay
intervals exists.  (The `video_b64` presence check is independent of the
timeline inputs and not modelled.) -/
def exportSegments (duration : ℚ) (zs : List ZoomEffect) (os : List TextOverlay) :
    Option (List Segment) :=
  if duration = 0 then none else some (compile duration zs os)

/-- Overlap length of zoom effect `z` with segment `[a,b)`:
`max(0, min(b, z.end) − max(a, z.start))`. -/
def olen (a b : ℚ) (z : ZoomEffect) : ℚ :=
  max 0 (min b z.endTime - max a z.startTime)

/-- Greatest overlap length any effect of the list has with `[a,b)`
(`0` for the empty list, and all overlap lengths are `≥ 0`). -/
def maxOlen (a b : ℚ) (zs : List ZoomEffect) : ℚ :=
  zs.foldr (fun z m => max (olen a b z) m) 0

/-- A crop rectangle in fractional frame coordinates
(`w`,`h` = width and height as fractions of the frame, `x`,`y` =
top-left corner as fractions of the frame). -/
structure CropRect where
  w : ℚ
  h : ℚ
  x : ℚ
  y : ℚ
  deriving DecidableEq, Repr

/-- The crop rectangle emitted per segment by `export_with_effects`
(app.py lines 315-320), divided by the symbolic frame size:
`crop_w = iw/scale`, `crop_x = iw*{x/100}-(iw/scale)/2`, and likewise
for `h`/`y` — no clamping is applied. -/
def appCrop (z : ZoomSpec) : CropRect :=
  ⟨1 / z.scale, 1 / z.scale,
   z.x / 100 - (1 / z.scale) / 2,
   z.y / 100 - (1 / z.scale) / 2⟩

/-- The crop rectangle emitted per zoom by `build_zoom_filter`
(server.py lines 92-106): `crop_width = 1.0/scale`,
`crop_x = x_percent - crop_width/2`, then
`crop_x = max(0, min(crop_x, 1 - crop_width))`, and likewise for `y`. -/
def buildZoomCrop (z : ZoomSpec) : CropRect :=
  let cropWidth := 1 / z.scale
  let cropHeight := 1 / z.scale
  let cropX := z.x / 100 - cropWidth / 2
  let cropY := z.y / 100 - cropHeight / 2
  ⟨cropWidth, cropHeight,
   max 0 (min cropX (1 - cropWidth)),
   max 0 (min cropY (1 - cropHeight))⟩

/-! ### Click clustering (backend/sak_enhanced.py, lines 204-222) -/

/-- A raw click event `(time, x, y)` as appended by `on_click`. -/
structure ClickEvent where
  time : ℚ
  x : ℚ
  y : ℚ
  deriving DecidableEq, Repr

/-- A cluster as kept by `cluster_clicks`: three parallel lists
`{"times": [...], "xs": [...], "ys": [...]}`, appended at the end. -/
structure Cluster where
  times : List ℚ
  xs : List ℚ
  ys : List ℚ
  deriving DecidableEq, Repr

/-- Arithmetic mean of a list, `sum(l)/len(l)`. -/
def listMean (l : List ℚ) : ℚ := l.sum / l.length

/-- `min(l)` of a nonempty list (`0` on the empty list, which the
clustering never queries: every cluster holds at least one member). -/
def listMin : List ℚ → ℚ
  | [] => 0
  | t :: ts => ts.foldl min t

/-- The join test of sak_enhanced.py line 213 against the last open
cluster: `t - lt <= time_eps and ((x-cx)**2+(y-cy)**2)**0.5 <= dist_eps`
where `lt` is the cluster's latest timestamp and `(cx,cy)` its running
centroid.  The source compares the Euclidean distance to `dist_eps`;
for the nonnegative `dist_eps` the function is called with (default
`40`) this is equivalent to the squared comparison used here, which is
expressible over `ℚ`. -/
def joinsLast (timeEps distEps t x y : ℚ) (c : Cluster) : Bool :=
  let lt := c.times.getLastD 0
  let cx := listMean c.xs
  let cy := listMean c.ys
  decide (t - lt ≤ timeEps ∧ (x - cx) ^ 2 + (y - cy) ^ 2 ≤ distEps ^ 2)

/-- The left-to-right pass of sak_enhanced.py lines 208-218 over the
sorted tail: `done` holds the closed clusters in creation order and
`cur` the last open cluster (`clusters[-1]`). -/
def clusterPass (timeEps distEps : ℚ) :
    List ClickEvent → List Cluster → Cluster → List Cluster
  | [], done, cur => done ++ [cur]
  | e :: es, done, cur =>
      if joinsLast timeEps distEps e.time e.x e.y cur then
        clusterPass timeEps distEps es done
          ⟨cur.times ++ [e.time], cur.xs ++ [e.x], cur.ys ++ [e.y]⟩
      else
        clusterPass timeEps distEps es (done ++ [cur]) ⟨[e.time], [e.x], [e.y]⟩

/-- `sorted(clicks, key=lambda c: c[0])` — Python's sort is stable, as
is `insertionSort`. -/
def sortClicks (cs : List ClickEvent) : List ClickEvent :=
  cs.insertionSort (fun c1 c2 => c1.time ≤ c2.time)

/-- One output keyframe `(min(times), mean(xs), mean(ys))`
(sak_enhanced.py line 221). -/
structure Keyframe where
  time : ℚ
  x : ℚ
  y : ℚ
  deriving DecidableEq, Repr

/-- The summary of a cluster (sak_enhanced.py lines 219-221). -/
def summarize (c : Cluster) : Keyframe :=
  ⟨listMin c.times, listMean c.xs, listMean c.ys⟩

/-- `cluster_clicks` (sak_enhanced.py lines 204-222): empty input gives
an empty output; otherwise sort by time, seed the first cluster with the
first event, run the pass, and summarize each cluster. -/
def cluster_clicks (cs : List ClickEvent) (timeEps distEps : ℚ) : List Keyframe :=
  match sortClicks cs with
  | [] => []
  | e :: es =>
      (clusterPass timeEps distEps es [] ⟨[e.time], [e.x], [e.y]⟩).map summarize

/-- `cluster_clicks` with its default thresholds
`time_eps=0.6, dist_eps=40`. -/
def cluster_clicks_default (cs : List ClickEvent) : List Keyframe :=
  cluster_clicks cs (3/5) 40

/-!
### Clustering as worded by the claim (refinement comparison)

The following definitions restate the clustering algorithm in the
claim's own vocabulary — a cluster is the ordered list of its member
events, and all statistics are computed from the members — to be
compared with the source embedding above, which keeps three parallel
stat lists per cluster.
-/

/-- The latest (last-appended) timestamp of a member list. -/
def latestTime (ms : List ClickEvent) : ℚ :=
  (ms.map (fun e => e.time)).getLastD 0

/-- Running centroid x-coordinate: mean of member x. -/
def centroidX (ms : List ClickEvent) : ℚ := listMean (ms.map (fun e => e.x))

/-- Running centroid y-coordinate: mean of member y. -/
def centroidY (ms : List ClickEvent) : ℚ := listMean (ms.map (fun e => e.y))

/-- The claim's join test: the event joins the last open cluster iff
its time minus the cluster's latest timestamp is at most `timeEps` and
its (squared) Euclidean distance to the running centroid is at most
`distEps` (squared). -/
def claimJoins (timeEps distEps : ℚ) (e : ClickEvent) (ms : List ClickEvent) : Bool :=
  decide (e.time - latestTime ms ≤ timeEps ∧
    (e.x - centroidX ms) ^ 2 + (e.y - centroidY ms) ^ 2 ≤ distEps ^ 2)

/-- Single left-to-right pass over the sorted events, clusters as
member lists. -/
def claimPass (timeEps distEps : ℚ) :
    List ClickEvent → List (List ClickEvent) → List ClickEvent →
      List (List ClickEvent)
  | [], done, cur => done ++ [cur]
  | e :: es, done, cur =>
      if claimJoins timeEps distEps e cur then
        claimPass timeEps distEps es done (cur ++ [e])
      else
        claimPass timeEps distEps es (done ++ [cur]) [e]

/-- The claim's keyframe: time = minimum member time, position = mean
of member coordinates. -/
def claimSummarize (ms : List ClickEvent) : Keyframe :=
  ⟨listMin (ms.map (fun e => e.time)),
   listMean (ms.map (fun e => e.x)),
   listMean (ms.map (fun e => e.y))⟩

/-- The clustering as described by the claim: sort by time ascending,
greedy single pass, one keyframe per cluster. -/
def cluster_clicks_claim (cs : List ClickEvent) (timeEps distEps : ℚ) :
    List Keyframe :=
  match sortClicks cs with
  | [] => []
  | e :: es => (claimPass timeEps distEps es [] [e]).map claimSummarize

/-- The parallel-list cluster corresponding to a member list. -/
def toCluster (ms : List ClickEvent) : Cluster :=
  ⟨ms.map (fun e => e.time), ms.map (fun e => e.x), ms.map (fun e => e.y)⟩

instance instIsTotalClickTime :
    IsTotal ClickEvent (fun c1 c2 : ClickEvent => c1.time ≤ c2.time) :=
  ⟨fun a b => le_total a.time b.time⟩

instance instIsTransClickTime :
    IsTrans ClickEvent (fun c1 c2 : ClickEvent => c1.time ≤ c2.time) :=
  ⟨fun _ _ _ => le_trans⟩

/-! ### Lemmas about sorted lists -/

/-- In a sorted list, a member that is a lower bound is the head. -/
lemma sorted_head_eq {l : List ℚ} {a x : ℚ} (hs : (a :: l).Sorted (· ≤ ·))
    (hx : x ∈ a :: l) (hlb : ∀ y ∈ a :: l, x ≤ y) : a = x := by
  rcases List.mem_cons.mp hx with h | h
  · exact h.symm
  · exact le_antisymm (List.rel_of_sorted_cons hs x h) (hlb a (by simp))

/-- In a sorted list, a member that is an upper bound is the last element. -/
lemma sorted_getLastD_eq : ∀ (l : List ℚ) (a x : ℚ), (a :: l).Sorted (· ≤ ·) →
    x ∈ a :: l → (∀ y ∈ a :: l, y ≤ x) → l.getLastD a = x
  | [], a, x, _, hx, _ => by simpa using (List.mem_singleton.mp hx).symm
  | b :: l, a, x, hs, hx, hub => by
      have hs' : (b :: l).Sorted (· ≤ ·) := hs.of_cons
      have hx' : x ∈ b :: l := by
        rcases List.mem_cons.mp hx with h | h
        · subst h
          have hab : x ≤ b := List.rel_of_sorted_cons hs b (by simp)
          have hba : b ≤ x := hub b (by simp)
          simp [le_antisymm hba hab]
        · exact h
      have hub' : ∀ y ∈ b :: l, y ≤ x := fun y hy => hub y (List.mem_cons_of_mem a hy)
      rw [List.getLastD_cons]
      exact sorted_getLastD_eq l b x hs' hx' hub'

/-! ### Lemmas about `changePoints` -/

lemma changePoints_sorted (d : ℚ) (zs : List ZoomEffect) (os : List TextOverlay) :
    (changePoints d zs os).Sorted (· ≤ ·) :=
  List.sorted_insertionSort _ _

lemma mem_changePoints_iff {d t : ℚ} {zs : List ZoomEffect} {os : List TextOverlay} :
    t ∈ changePoints d zs os ↔
      t ∈ (0 :: d :: (zs.flatMap (fun z => [z.startTime, z.endTime]) ++
            os.flatMap (fun o => [o.startTime, o.endTime]))) ∧ 0 ≤ t ∧ t ≤ d := by
  unfold changePoints
  rw [List.mem_insertionSort, List.mem_filter, List.mem_dedup]
  simp

lemma changePoints_nodup (d : ℚ) (zs : List ZoomEffect) (os : List TextOverlay) :
    (changePoints d zs os).Nodup :=
  (List.perm_insertionSort _ _).nodup_iff.mpr ((List.nodup_dedup _).filter _)

lemma changePoints_sorted_lt (d : ℚ) (zs : List ZoomEffect) (os : List TextOverlay) :
    (changePoints d zs os).Sorted (· < ·) :=
  (changePoints_sorted d zs os).lt_of_le (changePoints_nodup d zs os)

lemma mem_changePoints_bounds {d t : ℚ} {zs : List ZoomEffect} {os : List TextOverlay}
    (h : t ∈ changePoints d zs os) : 0 ≤ t ∧ t ≤ d :=
  (mem_changePoints_iff.mp h).2

lemma zero_mem_changePoints {d : ℚ} (zs : List ZoomEffect) (os : List TextOverlay)
    (hd : 0 ≤ d) : 0 ∈ changePoints d zs os :=
  mem_changePoints_iff.mpr ⟨by simp, le_refl 0, hd⟩

lemma dur_mem_changePoints {d : ℚ} (zs : List ZoomEffect) (os : List TextOverlay)
    (hd : 0 ≤ d) : d ∈ changePoints d zs os :=
  mem_changePoints_iff.mpr ⟨by simp, hd, le_refl d⟩

/-- For a positive duration, the breakpoint list starts at `0` and ends
at `duration`, with at least two entries. -/
lemma changePoints_shape {d : ℚ} (zs : List ZoomEffect) (os : List TextOverlay)
    (hd : 0 < d) : ∃ b l, changePoints d zs os = 0 :: b :: l ∧ l.getLastD b = d := by
  have h0 : (0 : ℚ) ∈ changePoints d zs os := zero_mem_changePoints zs os hd.le
  have hdm : d ∈ changePoints d zs os := dur_mem_changePoints zs os hd.le
  have hs := changePoints_sorted d zs os
  rcases hcp : changePoints d zs os with _ | ⟨h, t⟩
  · rw [hcp] at h0; simp at h0
  · rw [hcp] at h0 hdm hs
    have hh : h = 0 := by
      refine sorted_head_eq hs h0 ?_
      intro y hy
      exact (mem_changePoints_bounds (hcp ▸ hy)).1
    subst hh
    have hdt : d ∈ t := by
      rcases List.mem_cons.mp hdm with h | h
      · exact absurd h hd.ne'
      · exact h
    rcases t with _ | ⟨b, l⟩
    · simp at hdt
    · refine ⟨b, l, rfl, ?_⟩
      have hgl := sorted_getLastD_eq (b :: l) 0 d hs hdm
        (fun y hy => (mem_changePoints_bounds (hcp ▸ hy)).2)
      rw [List.getLastD_cons] at hgl
      exact hgl

/-! ### Lemmas about `mkSegments` -/

section MkSegments

variable (zs : List ZoomEffect) (os : List TextOverlay)

lemma mkSegments_nil : mkSegments zs os [] = [] := rfl

lemma mkSegments_single (a : ℚ) : mkSegments zs os [a] = [] := rfl

lemma mkSegments_cons_cons (a b : ℚ) (l : List ℚ) :
    mkSegments zs os (a :: b :: l) =
      { startTime := a, endTime := b,
        zoom := findActiveZoom a b zs,
        overlays := findActiveOverlays a b os } :: mkSegments zs os (b :: l) := rfl

/-- Each segment's start is one of the breakpoints. -/
lemma mkSegments_start_mem : ∀ (l : List ℚ) (s : Segment),
    s ∈ mkSegments zs os l → s.startTime ∈ l
  | a :: b :: t, s, hs => by
      rw [mkSegments_cons_cons] at hs
      rcases List.mem_cons.mp hs with h | h
      · subst h; simp
      · exact List.mem_cons_of_mem a (mkSegments_start_mem (b :: t) s h)
  | [], _, hs => by simp [mkSegments_nil] at hs
  | [_], _, hs => by simp [mkSegments_single] at hs

/-- Each segment's zoom and overlays are resolved from its own bounds. -/
lemma mkSegments_fields : ∀ (l : List ℚ) (s : Segment), s ∈ mkSegments zs os l →
    s.zoom = findActiveZoom s.startTime s.endTime zs ∧
    s.overlays = findActiveOverlays s.startTime s.endTime os
  | a :: b :: t, s, hs => by
      rw [mkSegments_cons_cons] at hs
      rcases List.mem_cons.mp hs with h | h
      · subst h; exact ⟨rfl, rfl⟩
      · exact mkSegments_fields (b :: t) s h
  | [], _, hs => by simp [mkSegments_nil] at hs
  | [_], _, hs => by simp [mkSegments_single] at hs

/-- Consecutive segments share their boundary breakpoint. -/
lemma mkSegments_chain : ∀ l : List ℚ,
    List.Chain' (fun s t : Segment => s.endTime = t.startTime) (mkSegments zs os l)
  | [] => by simp [mkSegments_nil]
  | [a] => by simp [mkSegments_single]
  | a :: b :: t => by
      rw [mkSegments_cons_cons]
      refine List.chain'_cons'.mpr ⟨?_, mkSegments_chain (b :: t)⟩
      intro s hs
      rcases t with _ | ⟨c, t⟩
      · simp [mkSegments_single] at hs
      · rw [mkSegments_cons_cons] at hs
        simp only [List.head?_cons, Option.mem_def, Option.some.injEq] at hs
        subst hs; rfl

/-- Telescoping: the spans of the segments over breakpoints `a :: l`
sum to `l.getLastD a - a`. -/
lemma mkSegments_sum : ∀ (l : List ℚ) (a : ℚ),
    ((mkSegments zs os (a :: l)).map (fun s => s.endTime - s.startTime)).sum =
      l.getLastD a - a
  | [], a => by simp [mkSegments_single]
  | b :: t, a => by
      rw [mkSegments_cons_cons]
      simp only [List.map_cons, List.sum_cons, List.getLastD_cons]
      rw [mkSegments_sum t b]
      ring

/-- Nonnegative spans when the breakpoints are sorted. -/
lemma mkSegments_le : ∀ l : List ℚ, List.Chain' (· ≤ ·) l →
    ∀ s ∈ mkSegments zs os l, s.startTime ≤ s.endTime
  | [], _, s, hs => by simp [mkSegments_nil] at hs
  | [_], _, s, hs => by simp [mkSegments_single] at hs
  | a :: b :: t, hc, s, hs => by
      rw [mkSegments_cons_cons] at hs
      rcases List.chain'_cons.mp hc with ⟨hab, hc'⟩
      rcases List.mem_cons.mp hs with h | h
      · subst h; exact hab
      · exact mkSegments_le (b :: t) hc' s h

/-- Positive spans when the breakpoints are strictly sorted. -/
lemma mkSegments_lt : ∀ l : List ℚ, List.Chain' (· < ·) l →
    ∀ s ∈ mkSegments zs os l, s.startTime < s.endTime
  | [], _, s, hs => by simp [mkSegments_nil] at hs
  | [_], _, s, hs => by simp [mkSegments_single] at hs
  | a :: b :: t, hc, s, hs => by
      rw [mkSegments_cons_cons] at hs
      rcases List.chain'_cons.mp hc with ⟨hab, hc'⟩
      rcases List.mem_cons.mp hs with h | h
      · subst h; exact hab
      · exact mkSegments_lt (b :: t) hc' s h

/-- Segments from a sorted breakpoint list are mutually ordered: every
earlier segment ends no later than every later one starts. -/
lemma mkSegments_pairwise : ∀ l : List ℚ, l.Sorted (· ≤ ·) →
    List.Pairwise (fun s t : Segment => s.endTime ≤ t.startTime) (mkSegments zs os l)
  | [], _ => by simp [mkSegments_nil]
  | [_], _ => by simp [mkSegments_single]
  | a :: b :: t, hs => by
      rw [mkSegments_cons_cons]
      have hs' : (b :: t).Sorted (· ≤ ·) := hs.of_cons
      refine List.pairwise_cons.mpr ⟨?_, mkSegments_pairwise (b :: t) hs'⟩
      intro s hsm
      have hmem := mkSegments_start_mem zs os (b :: t) s hsm
      show b ≤ s.startTime
      rcases List.mem_cons.mp hmem with h | h
      · exact h ▸ le_refl b
      · exact List.rel_of_sorted_cons hs' _ h

/-- The last segment over breakpoints `a :: b :: l` ends at the last
breakpoint. -/
lemma mkSegments_getLast : ∀ (l : List ℚ) (a b : ℚ),
    (mkSegments zs os (a :: b :: l)).getLast?.map Segment.endTime =
      some (l.getLastD b)
  | [], a, b => by simp [mkSegments_cons_cons, mkSegments_single]
  | c :: t, a, b => by
      have ih := mkSegments_getLast t b c
      rw [mkSegments_cons_cons zs os a b (c :: t)]
      rw [mkSegments_cons_cons zs os b c t] at ih ⊢
      rw [List.getLast?_cons_cons, List.getLastD_cons]
      exact ih

end MkSegments

/-! ### The active-zoom loop computes the first maximal-overlap effect -/

lemma olen_nonneg (a b : ℚ) (z : ZoomEffect) : 0 ≤ olen a b z :=
  le_max_left 0 _

lemma maxOlen_nil (a b : ℚ) : maxOlen a b [] = 0 := rfl

lemma maxOlen_cons (a b : ℚ) (z : ZoomEffect) (zs : List ZoomEffect) :
    maxOlen a b (z :: zs) = max (olen a b z) (maxOlen a b zs) := rfl

lemma maxOlen_nonneg (a b : ℚ) : ∀ zs : List ZoomEffect, 0 ≤ maxOlen a b zs
  | [] => le_refl 0
  | z :: zs => by
      rw [maxOlen_cons]
      exact le_trans (maxOlen_nonneg a b zs) (le_max_right _ _)

/-- The maximal overlap is positive iff some effect overlaps the segment. -/
lemma maxOlen_pos_iff (a b : ℚ) : ∀ zs : List ZoomEffect,
    0 < maxOlen a b zs ↔ ∃ z ∈ zs, 0 < olen a b z
  | [] => by simp [maxOlen_nil]
  | z :: zs => by
      rw [maxOlen_cons, lt_max_iff, maxOlen_pos_iff a b zs]
      simp

/-- For a nonnegative running maximum, one step of the loop either
replaces the state with the current effect (when its overlap strictly
exceeds the maximum) or leaves it unchanged. -/
lemma zoomStep_eq (a b : ℚ) (best : Option ZoomEffect) (m : ℚ) (hm : 0 ≤ m)
    (z : ZoomEffect) :
    zoomStep a b (best, m) z =
      if m < olen a b z then (some z, olen a b z) else (best, m) := by
  unfold zoomStep olen
  by_cases hlt : max a z.startTime < min b z.endTime
  · rw [if_pos hlt]
    have : max 0 (min b z.endTime - max a z.startTime) =
        min b z.endTime - max a z.startTime :=
      max_eq_right (by linarith)
    rw [this]
  · rw [if_neg hlt]
    have : max 0 (min b z.endTime - max a z.startTime) = 0 :=
      max_eq_left (by push_neg at hlt; linarith)
    rw [this, if_neg (not_lt.mpr hm)]

/-- If no remaining effect beats the running maximum, the loop leaves
the state unchanged. -/
lemma foldl_zoomStep_of_le (a b : ℚ) : ∀ (zs : List ZoomEffect)
    (best : Option ZoomEffect) (m : ℚ), 0 ≤ m → maxOlen a b zs ≤ m →
    zs.foldl (zoomStep a b) (best, m) = (best, m)
  | [], _, _, _, _ => rfl
  | z :: zs, best, m, hm, hle => by
      rw [maxOlen_cons, max_le_iff] at hle
      rw [List.foldl_cons, zoomStep_eq a b best m hm z,
        if_neg (not_lt.mpr hle.1)]
      exact foldl_zoomStep_of_le a b zs best m hm hle.2

/-- If some remaining effect beats the running maximum, the loop ends
on the first effect attaining the maximal overlap, with that overlap as
the final coverage. -/
lemma foldl_zoomStep_of_lt (a b : ℚ) : ∀ (zs : List ZoomEffect)
    (best : Option ZoomEffect) (m : ℚ), 0 ≤ m → m < maxOlen a b zs →
    ∃ z₀, zs.find? (fun z => decide (olen a b z = maxOlen a b zs)) = some z₀ ∧
      zs.foldl (zoomStep a b) (best, m) = (some z₀, maxOlen a b zs)
  | [], _, m, hm, hlt => absurd hlt (not_lt.mpr (by rw [maxOlen_nil]; exact hm))
  | z :: zs, best, m, hm, hlt => by
      rw [List.foldl_cons, zoomStep_eq a b best m hm z]
      by_cases hc : m < olen a b z
      · rw [if_pos hc]
        by_cases h1 : maxOlen a b zs ≤ olen a b z
        · have hM : maxOlen a b (z :: zs) = olen a b z := by
            rw [maxOlen_cons]; exact max_eq_left h1
          refine ⟨z, ?_, ?_⟩
          · rw [List.find?_cons_of_pos _ (by simp [hM])]
          · rw [foldl_zoomStep_of_le a b zs (some z) (olen a b z)
              (olen_nonneg a b z) h1, hM]
        · push_neg at h1
          have hM : maxOlen a b (z :: zs) = maxOlen a b zs := by
            rw [maxOlen_cons]; exact max_eq_right h1.le
          obtain ⟨z₀, hfind, hfold⟩ := foldl_zoomStep_of_lt a b zs (some z)
            (olen a b z) (olen_nonneg a b z) h1
          refine ⟨z₀, ?_, ?_⟩
          · rw [List.find?_cons_of_neg _ (by simp [hM]; exact ne_of_lt (hM ▸ h1)), hM]
            exact hfind
          · rw [hM]; exact hfold
      · rw [if_neg hc]
        push_neg at hc
        have h2 : m < maxOlen a b zs := by
          rcases lt_max_iff.mp (by rw [maxOlen_cons] at hlt; exact hlt) with h | h
          · exact absurd h (not_lt.mpr hc)
          · exact h
        have hM : maxOlen a b (z :: zs) = maxOlen a b zs := by
          rw [maxOlen_cons]
          exact max_eq_right (le_trans hc h2.le)
        obtain ⟨z₀, hfind, hfold⟩ := foldl_zoomStep_of_lt a b zs best m hm h2
        refine ⟨z₀, ?_, ?_⟩
        · rw [List.find?_cons_of_neg _ (by simp [hM]; exact ne_of_lt (lt_of_le_of_lt hc h2)), hM]
          exact hfind
        · rw [hM]; exact hfold

/-- Closed form of the active-zoom resolution: the first effect in
input order whose overlap with `[a,b)` equals the maximal overlap, when
that maximum is positive, and the default zoom otherwise. -/
lemma findActiveZoom_eq (a b : ℚ) (zs : List ZoomEffect) :
    findActiveZoom a b zs =
      if 0 < maxOlen a b zs then
        ((zs.find? (fun z => decide (olen a b z = maxOlen a b zs))).map
          ZoomEffect.toSpec).getD defaultZoom
      else defaultZoom := by
  unfold findActiveZoom
  by_cases h : 0 < maxOlen a b zs
  · obtain ⟨z₀, hfind, hfold⟩ :=
      foldl_zoomStep_of_lt a b zs none 0 (le_refl 0) h
    rw [hfold, if_pos h, hfind]
    rfl
  · rw [foldl_zoomStep_of_le a b zs none 0 (le_refl 0) (not_lt.mp h), if_neg h]

/-! ### Clustering lemmas -/

/-- The join test of the source on a parallel-list cluster coincides
with the claim's join test on the member list. -/
lemma joinsLast_toCluster (timeEps distEps : ℚ) (e : ClickEvent)
    (ms : List ClickEvent) :
    joinsLast timeEps distEps e.time e.x e.y (toCluster ms) =
      claimJoins timeEps distEps e ms := rfl

lemma toCluster_append (ms : List ClickEvent) (e : ClickEvent) :
    toCluster (ms ++ [e]) =
      ⟨(toCluster ms).times ++ [e.time], (toCluster ms).xs ++ [e.x],
       (toCluster ms).ys ++ [e.y]⟩ := by
  simp [toCluster]

/-- The source pass on parallel-list clusters is the claim's pass on
member lists, transported by `toCluster`. -/
lemma clusterPass_toCluster (timeEps distEps : ℚ) : ∀ (es : List ClickEvent)
    (doneM : List (List ClickEvent)) (curM : List ClickEvent),
    clusterPass timeEps distEps es (doneM.map toCluster) (toCluster curM) =
      (claimPass timeEps distEps es doneM curM).map toCluster
  | [], doneM, curM => by
      show (doneM.map toCluster) ++ [toCluster curM] = _
      rw [claimPass, List.map_append, List.map_singleton]
  | e :: es, doneM, curM => by
      rw [clusterPass, claimPass, joinsLast_toCluster]
      by_cases hj : claimJoins timeEps distEps e curM = true
      · rw [if_pos hj, if_pos hj, ← toCluster_append]
        exact clusterPass_toCluster timeEps distEps es doneM (curM ++ [e])
      · rw [if_neg hj, if_neg hj]
        have h1 : doneM.map toCluster ++ [toCluster curM] =
            (doneM ++ [curM]).map toCluster := by
          rw [List.map_append, List.map_singleton]
        have h2 : (⟨[e.time], [e.x], [e.y]⟩ : Cluster) = toCluster [e] := rfl
        rw [h1, h2]
        exact clusterPass_toCluster timeEps distEps es (doneM ++ [curM]) [e]

/-- `foldl min` is a lower bound of the accumulator and the list. -/
lemma foldl_min_le : ∀ (ts : List ℚ) (a x : ℚ), x ∈ a :: ts → ts.foldl min a ≤ x
  | [], a, x, hx => by
      rw [List.mem_singleton.mp hx]
      exact le_refl a
  | t :: ts, a, x, hx => by
      rw [List.foldl_cons]
      rcases List.mem_cons.mp hx with h | h
      · subst h
        exact le_trans (foldl_min_le ts (min x t) (min x t) (by simp))
          (min_le_left x t)
      · rcases List.mem_cons.mp h with h | h
        · subst h
          exact le_trans (foldl_min_le ts (min a x) (min a x) (by simp))
            (min_le_right a x)
        · exact foldl_min_le ts (min a t) x (List.mem_cons_of_mem _ h)

/-- `foldl min` is attained by the accumulator or a list element. -/
lemma foldl_min_mem : ∀ (ts : List ℚ) (a : ℚ), ts.foldl min a ∈ a :: ts
  | [], a => by simp
  | t :: ts, a => by
      rw [List.foldl_cons]
      have h := foldl_min_mem ts (min a t)
      rcases List.mem_cons.mp h with h | h
      · rcases min_choice a t with hm | hm
        · rw [h, hm]; simp
        · rw [h, hm]; simp
      · simp [List.mem_cons_of_mem, h]

lemma listMin_le {l : List ℚ} {x : ℚ} (hx : x ∈ l) : listMin l ≤ x := by
  cases l with
  | nil => simp at hx
  | cons t ts => exact foldl_min_le ts t x hx

lemma listMin_mem : ∀ {l : List ℚ}, l ≠ [] → listMin l ∈ l
  | [], h => absurd rfl h
  | t :: ts, _ => foldl_min_mem ts t

/-- Invariant of the clustering pass: if the events are sorted, the
current cluster is nonempty, everything seen so far precedes all
remaining events, and the closed clusters are ordered by their minimum
times, then the minimum times of all emitted clusters are pairwise
ordered. -/
lemma clusterPass_min_pairwise (timeEps distEps : ℚ) :
    ∀ (es : List ClickEvent) (done : List Cluster) (cur : Cluster),
    es.Pairwise (fun c1 c2 : ClickEvent => c1.time ≤ c2.time) →
    cur.times ≠ [] →
    (∀ t ∈ cur.times, ∀ e ∈ es, t ≤ e.time) →
    (∀ c ∈ done, ∀ t ∈ cur.times, listMin c.times ≤ t) →
    (∀ c ∈ done, ∀ e ∈ es, listMin c.times ≤ e.time) →
    (done.map (fun c => listMin c.times)).Pairwise (· ≤ ·) →
    ((clusterPass timeEps distEps es done cur).map
      (fun c => listMin c.times)).Pairwise (· ≤ ·)
  | [], done, cur, _, hne, _, hdc, _, hdp => by
      rw [clusterPass, List.map_append, List.map_singleton]
      rw [List.pairwise_append]
      refine ⟨hdp, List.pairwise_singleton _ _, ?_⟩
      intro a ha b hb
      rw [List.mem_singleton.mp hb]
      obtain ⟨c, hc, rfl⟩ := List.mem_map.mp ha
      exact hdc c hc (listMin cur.times) (listMin_mem hne)
  | e :: es, done, cur, hsort, hne, hcur, hdc, hde, hdp => by
      rw [clusterPass]
      rcases List.pairwise_cons.mp hsort with ⟨hefirst, hsort'⟩
      by_cases hj : joinsLast timeEps distEps e.time e.x e.y cur = true
      · rw [if_pos hj]
        refine clusterPass_min_pairwise timeEps distEps es done _ hsort'
          (by simp) ?_ ?_ ?_ hdp
        · intro t ht e' he'
          rcases List.mem_append.mp ht with h | h
          · exact hcur t h e' (List.mem_cons_of_mem e he')
          · rw [List.mem_singleton.mp h]
            exact hefirst e' he'
        · intro c hc t ht
          rcases List.mem_append.mp ht with h | h
          · exact hdc c hc t h
          · rw [List.mem_singleton.mp h]
            exact hde c hc e (List.mem_cons_self e es)
        · intro c hc e' he'
          exact hde c hc e' (List.mem_cons_of_mem e he')
      · rw [if_neg hj]
        have hminmem : listMin cur.times ∈ cur.times := listMin_mem hne
        refine clusterPass_min_pairwise timeEps distEps es (done ++ [cur]) _
          hsort' (by simp) ?_ ?_ ?_ ?_
        · intro t ht e' he'
          rw [show (⟨[e.time], [e.x], [e.y]⟩ : Cluster).times = [e.time] from rfl]
            at ht
          rw [List.mem_singleton.mp ht]
          exact hefirst e' he'
        · intro c hc t ht
          rw [show (⟨[e.time], [e.x], [e.y]⟩ : Cluster).times = [e.time] from rfl]
            at ht
          rw [List.mem_singleton.mp ht]
          rcases List.mem_append.mp hc with h | h
          · exact hde c h e (List.mem_cons_self e es)
          · rw [List.mem_singleton.mp h]
            exact hcur (listMin cur.times) hminmem e (List.mem_cons_self e es)
        · intro c hc e' he'
          rcases List.mem_append.mp hc with h | h
          · exact hde c h e' (List.mem_cons_of_mem e he')
          · rw [List.mem_singleton.mp h]
            exact hcur (listMin cur.times) hminmem e' (List.mem_cons_of_mem e he')
        · rw [List.map_append, List.map_singleton, List.pairwise_append]
          refine ⟨hdp, List.pairwise_singleton _ _, ?_⟩
          intro a ha b hb
          rw [List.mem_singleton.mp hb]
          obtain ⟨c, hc, rfl⟩ := List.mem_map.mp ha
          exact hdc c hc (listMin cur.times) hminmem

/-!
### Claim theorems
-/

/-- C1: for every duration > 0 and every list of zoom effects and text
overlays, the segment list produced by the timeline compilation in
`export_with_effects` is ordered, contiguous (each segment's `endTime`
equals the next segment's `startTime`), non-overlapping, starts at `0`,
ends at `duration`, and the sum of the segment spans equals `duration`
exactly. -/
theorem compile_coverage (d : ℚ) (zs : List ZoomEffect) (os : List TextOverlay)
    (hd : 0 < d) :
    compile d zs os ≠ [] ∧
    List.Chain' (fun s t : Segment => s.endTime = t.startTime) (compile d zs os) ∧
    List.Pairwise (fun s t : Segment => s.endTime ≤ t.startTime) (compile d zs os) ∧
    (compile d zs os).head?.map Segment.startTime = some 0 ∧
    (compile d zs os).getLast?.map Segment.endTime = some d ∧
    ((compile d zs os).map (fun s => s.endTime - s.startTime)).sum = d := by
  obtain ⟨b, l, hcp, hlast⟩ := changePoints_shape zs os hd
  have hchain := mkSegments_chain zs os (changePoints d zs os)
  have hpair := mkSegments_pairwise zs os (changePoints d zs os)
    (changePoints_sorted d zs os)
  unfold compile
  rw [hcp] at hchain hpair ⊢
  refine ⟨by rw [mkSegments_cons_cons]; exact List.cons_ne_nil _ _,
    hchain, hpair, ?_, ?_, ?_⟩
  · rw [mkSegments_cons_cons]; rfl
  · rw [mkSegments_getLast, hlast]
  · rw [mkSegments_sum zs os (b :: l) 0, List.getLastD_cons, hlast]
    ring

/-- Witness for C1 at `duration = 1` with no effects and no overlays. -/
theorem compile_coverage_witness :
    compile 1 [] [] ≠ [] ∧
    List.Chain' (fun s t : Segment => s.endTime = t.startTime) (compile 1 [] []) ∧
    List.Pairwise (fun s t : Segment => s.endTime ≤ t.startTime) (compile 1 [] []) ∧
    (compile 1 [] []).head?.map Segment.startTime = some 0 ∧
    (compile 1 [] []).getLast?.map Segment.endTime = some 1 ∧
    ((compile 1 [] []).map (fun s => s.endTime - s.startTime)).sum = 1 :=
  compile_coverage 1 [] [] (by norm_num)

/-- C9: every segment emitted by the compilation has strictly positive
length (`startTime < endTime`): the breakpoint set is deduplicated
before sorting, so consecutive breakpoints are strictly increasing and
no zero-length segment is produced, for every duration > 0 and every
effect/overlay input. -/
theorem compile_pos_spans (d : ℚ) (zs : List ZoomEffect) (os : List TextOverlay)
    (_hd : 0 < d) : ∀ s ∈ compile d zs os, s.startTime < s.endTime := by
  intro s hs
  exact mkSegments_lt zs os _ (changePoints_sorted_lt d zs os).chain' s hs

/-- Witness for C9: the single segment of `compile 1 [] []` has positive
length. -/
theorem compile_pos_spans_witness :
    (⟨0, 1, defaultZoom, []⟩ : Segment).startTime <
      (⟨0, 1, defaultZoom, []⟩ : Segment).endTime :=
  compile_pos_spans 1 [] [] (by norm_num) ⟨0, 1, defaultZoom, []⟩ (by decide)

/-- C7: empty inputs are not errors: for every duration `d > 0`,
compilation with zero zoom effects and zero text overlays yields exactly
one segment spanning `[0, d)` carrying the default zoom, and
`cluster_clicks` applied to an empty event list returns an empty
keyframe list. -/
theorem empty_inputs_minimal (d timeEps distEps : ℚ) (hd : 0 < d) :
    compile d [] [] = [⟨0, d, defaultZoom, []⟩] ∧
    cluster_clicks [] timeEps distEps = [] := by
  constructor
  · have h1 : changePoints d [] [] = [0, d] := by
      unfold changePoints
      have hrew :
          (0 :: d :: ((([] : List ZoomEffect).flatMap fun z => [z.startTime, z.endTime]) ++
            (([] : List TextOverlay).flatMap fun o => [o.startTime, o.endTime]))) =
          [0, d] := by simp
      rw [hrew]
      have hded : ([0, d] : List ℚ).dedup = [0, d] := by
        rw [List.dedup_cons_of_not_mem (by simp [hd.ne]), List.dedup_cons_of_not_mem (by simp),
          List.dedup_nil]
      rw [hded]
      have hfil : (([0, d] : List ℚ).filter fun t => decide (0 ≤ t ∧ t ≤ d)) = [0, d] := by
        simp [List.filter, hd.le]
      rw [hfil]
      exact List.Sorted.insertionSort_eq (by simp [List.sorted_cons, hd.le])
    unfold compile
    rw [h1, mkSegments_cons_cons]
    rfl
  · rfl

/-- Witness for C7 at `d = 1`. -/
theorem empty_inputs_minimal_witness :
    compile 1 [] [] = [⟨0, 1, defaultZoom, []⟩] ∧ cluster_clicks [] 0 0 = [] :=
  empty_inputs_minimal 1 0 0 (by norm_num)

/-- C8: the segment compilation and `cluster_clicks` are deterministic:
any two runs on identical inputs (same values in the same input order)
return identical outputs.  Both are embedded as pure functions of their
arguments — the Python code reads no other state (the only set it
builds is sorted by value before use). -/
theorem compile_cluster_deterministic (d d' : ℚ) (zs zs' : List ZoomEffect)
    (os os' : List TextOverlay) (cs cs' : List ClickEvent) (te te' de de' : ℚ)
    (h1 : d = d') (h2 : zs = zs') (h3 : os = os') (h4 : cs = cs')
    (h5 : te = te') (h6 : de = de') :
    compile d zs os = compile d' zs' os' ∧
    cluster_clicks cs te de = cluster_clicks cs' te' de' := by
  subst h1; subst h2; subst h3; subst h4; subst h5; subst h6
  exact ⟨rfl, rfl⟩

/-- C2: for every segment `[a,b)` produced by the compilation, the
active zoom assigned to it is the zoom effect whose overlap length
`max(0, min(b, effect.end) − max(a, effect.start))` is strictly
greatest — on a tie the first effect in input order wins (`find?`
returns the first list element attaining the maximal overlap) — and
when no effect has positive overlap the segment receives the default
zoom `{x: 50, y: 50, scale: 1.0}`. -/
theorem activeZoom_resolution (d : ℚ) (zs : List ZoomEffect)
    (os : List TextOverlay) (s : Segment) (hs : s ∈ compile d zs os) :
    s.zoom =
      (if 0 < maxOlen s.startTime s.endTime zs then
        ((zs.find? (fun z => decide (olen s.startTime s.endTime z =
            maxOlen s.startTime s.endTime zs))).map
          ZoomEffect.toSpec).getD defaultZoom
      else defaultZoom) ∧
    (0 < maxOlen s.startTime s.endTime zs ↔
      ∃ z ∈ zs, 0 < olen s.startTime s.endTime z) := by
  obtain ⟨hz, -⟩ := mkSegments_fields zs os _ s hs
  exact ⟨hz.trans (findActiveZoom_eq s.startTime s.endTime zs),
    maxOlen_pos_iff s.startTime s.endTime zs⟩

/-- Witness for C2 at the spec's scenario C: effects A `[0,6)` and
B `[3,10)` on duration 10; the segment `[3,6)` has equal overlap 3 with
both and is assigned A, the first in input order. -/
theorem activeZoom_resolution_witness :
    (⟨3, 6, ⟨10, 10, 2⟩, []⟩ : Segment).zoom =
      (if 0 < maxOlen 3 6 [⟨0, 6, 10, 10, 2⟩, ⟨3, 10, 90, 90, 3⟩] then
        (([(⟨0, 6, 10, 10, 2⟩ : ZoomEffect), ⟨3, 10, 90, 90, 3⟩].find?
            (fun z => decide (olen 3 6 z =
              maxOlen 3 6 [⟨0, 6, 10, 10, 2⟩, ⟨3, 10, 90, 90, 3⟩]))).map
          ZoomEffect.toSpec).getD defaultZoom
      else defaultZoom) ∧
    (0 < maxOlen 3 6 [⟨0, 6, 10, 10, 2⟩, ⟨3, 10, 90, 90, 3⟩] ↔
      ∃ z ∈ [(⟨0, 6, 10, 10, 2⟩ : ZoomEffect), ⟨3, 10, 90, 90, 3⟩],
        0 < olen 3 6 z) :=
  activeZoom_resolution 10 [⟨0, 6, 10, 10, 2⟩, ⟨3, 10, 90, 90, 3⟩] []
    ⟨3, 6, ⟨10, 10, 2⟩, []⟩ (by
      norm_num [compile, changePoints, List.insertionSort, List.orderedInsert,
        mkSegments, findActiveZoom, zoomStep, findActiveOverlays,
        ZoomEffect.toSpec, List.dedup, List.foldl, defaultZoom])

/-- C6: for every segment with bounds `[a,b]` produced by the
compilation, a text overlay is in that segment's active overlay list
iff `overlay.start ≤ b` and `overlay.end ≥ a` (boundary-inclusive at
both ends), and the active overlays form a sublist of the input — they
appear in their input order. -/
theorem overlay_resolution (d : ℚ) (zs : List ZoomEffect)
    (os : List TextOverlay) (s : Segment) (hs : s ∈ compile d zs os) :
    (∀ o : TextOverlay, o ∈ s.overlays ↔
      o ∈ os ∧ o.startTime ≤ s.endTime ∧ s.startTime ≤ o.endTime) ∧
    s.overlays.Sublist os := by
  obtain ⟨-, hov⟩ := mkSegments_fields zs os _ s hs
  rw [hov]
  unfold findActiveOverlays
  refine ⟨fun o => ?_, List.filter_sublist os⟩
  rw [List.mem_filter]
  simp [and_assoc]

/-- Witness for C6: on duration 10 with the single overlay `[0,3]`, the
segment `[3,10)` still lists the overlay — it ends exactly at the
segment's start (boundary-inclusive). -/
theorem overlay_resolution_witness :
    (∀ o : TextOverlay, o ∈ (⟨3, 10, defaultZoom, [⟨0, 3, 1, 1, "t"⟩]⟩ : Segment).overlays ↔
      o ∈ [(⟨0, 3, 1, 1, "t"⟩ : TextOverlay)] ∧
      o.startTime ≤ (⟨3, 10, defaultZoom, [⟨0, 3, 1, 1, "t"⟩]⟩ : Segment).endTime ∧
      (⟨3, 10, defaultZoom, [⟨0, 3, 1, 1, "t"⟩]⟩ : Segment).startTime ≤ o.endTime) ∧
    (⟨3, 10, defaultZoom, [⟨0, 3, 1, 1, "t"⟩]⟩ : Segment).overlays.Sublist
      [(⟨0, 3, 1, 1, "t"⟩ : TextOverlay)] :=
  overlay_resolution 10 [] [⟨0, 3, 1, 1, "t"⟩]
    ⟨3, 10, defaultZoom, [⟨0, 3, 1, 1, "t"⟩]⟩ (by decide)

/-- Witness for C8 at concrete equal inputs. -/
theorem compile_cluster_deterministic_witness :
    compile 1 [] [] = compile 1 [] [] ∧
    cluster_clicks [] 0 0 = cluster_clicks [] 0 0 :=
  compile_cluster_deterministic 1 1 [] [] [] [] [] [] 0 0 0 0
    rfl rfl rfl rfl rfl rfl

/-- C3: `cluster_clicks` sorts the events by time ascending and makes a
single left-to-right pass appending an event to the last open cluster
iff its time minus that cluster's latest timestamp is ≤ `timeEps`
(default 0.6) and its Euclidean distance to the running centroid is
≤ `distEps` (default 40), starting a new cluster otherwise; each
keyframe is (min time of cluster, mean of member coordinates).  Stated
as: the source embedding equals `cluster_clicks_claim`, the algorithm
written exactly as the claim words it. -/
theorem cluster_clicks_matches_claim (cs : List ClickEvent)
    (timeEps distEps : ℚ) :
    cluster_clicks cs timeEps distEps = cluster_clicks_claim cs timeEps distEps ∧
    cluster_clicks_default cs = cluster_clicks_claim cs (3/5) 40 := by
  have hmain : ∀ (cs' : List ClickEvent) (te de : ℚ),
      cluster_clicks cs' te de = cluster_clicks_claim cs' te de := by
    intro cs' te de
    unfold cluster_clicks cluster_clicks_claim
    cases h : sortClicks cs' with
    | nil => rfl
    | cons e es =>
        show (clusterPass te de es [] ⟨[e.time], [e.x], [e.y]⟩).map summarize =
          (claimPass te de es [] [e]).map claimSummarize
        rw [show (⟨[e.time], [e.x], [e.y]⟩ : Cluster) = toCluster [e] from rfl,
          show ([] : List Cluster) =
            ([] : List (List ClickEvent)).map toCluster from rfl,
          clusterPass_toCluster te de es [] [e], List.map_map]
        rfl
  exact ⟨hmain cs timeEps distEps, hmain cs (3/5) 40⟩

/-- C10: the keyframe sequence returned by `cluster_clicks` is sorted
by nondecreasing time: each keyframe's time (the minimum click time of
its cluster) is at most the time of the next keyframe. -/
theorem cluster_keyframes_sorted (cs : List ClickEvent) (timeEps distEps : ℚ) :
    List.Chain' (· ≤ ·) ((cluster_clicks cs timeEps distEps).map Keyframe.time) := by
  unfold cluster_clicks
  cases h : sortClicks cs with
  | nil => simp
  | cons e es =>
      have hsorted : (e :: es).Pairwise
          (fun c1 c2 : ClickEvent => c1.time ≤ c2.time) := by
        have hs := List.sorted_insertionSort
          (fun c1 c2 : ClickEvent => c1.time ≤ c2.time) cs
        unfold sortClicks at h
        rw [h] at hs
        exact hs
      rcases List.pairwise_cons.mp hsorted with ⟨hefirst, hsort'⟩
      have hp := clusterPass_min_pairwise timeEps distEps es []
        ⟨[e.time], [e.x], [e.y]⟩ hsort' (by simp)
        (by
          intro t ht e' he'
          rw [show (⟨[e.time], [e.x], [e.y]⟩ : Cluster).times = [e.time] from rfl]
            at ht
          rw [List.mem_singleton.mp ht]
          exact hefirst e' he')
        (by simp) (by simp) (by simp)
      rw [List.map_map]
      have heq : (Keyframe.time ∘ summarize) = fun c => listMin c.times := rfl
      rw [heq]
      exact hp.chain'

/-- C4 counterexample: the claim says the compilation rejects every
`duration ≤ 0` and every effect with `start ≥ end`, producing no
segments.  In the code the only guard is `if not video_b64 or not
duration`, which for a float duration fires exactly at `0.0`: at
`duration = -1` the request is accepted (yielding an empty segment
list rather than a rejection), and a zoom effect with
`startTime = 5 ≥ 3 = endTime` is accepted and compiled into three
segments. -/
theorem export_validation_cex :
    exportSegments (-1) [] [] = some [] ∧
    (exportSegments 10 [⟨5, 3, 50, 50, 2⟩] []).isSome = true := by
  constructor
  · unfold exportSegments
    rw [if_neg (by norm_num)]
    have hcp : changePoints (-1) [] [] = [] := by
      unfold changePoints
      have hfil :
          ((0 :: (-1 : ℚ) :: ((([] : List ZoomEffect).flatMap fun z =>
              [z.startTime, z.endTime]) ++
            (([] : List TextOverlay).flatMap fun o =>
              [o.startTime, o.endTime]))).dedup.filter
            fun t => decide (0 ≤ t ∧ t ≤ (-1 : ℚ))) = [] := by
        rw [List.filter_eq_nil_iff]
        intro t _
        simp only [decide_eq_true_eq, not_and]
        intro h0 h1
        linarith
      rw [hfil]
      rfl
    unfold compile
    rw [hcp]
    rfl
  · decide

/-- C4, amended: the endpoint rejects exactly the duration `0` (the
falsy float); a negative duration is accepted and yields an empty
segment list; intervals with `start ≥ end` are never rejected. -/
theorem export_validation (d : ℚ) (zs : List ZoomEffect) (os : List TextOverlay) :
    (exportSegments d zs os = none ↔ d = 0) ∧
    (d < 0 → exportSegments d zs os = some []) := by
  constructor
  · unfold exportSegments
    constructor
    · intro h
      by_contra hne
      rw [if_neg hne] at h
      exact Option.some_ne_none _ h
    · intro h
      rw [if_pos h]
  · intro hneg
    unfold exportSegments
    rw [if_neg (by exact hneg.ne)]
    have hcp : changePoints d zs os = [] := by
      unfold changePoints
      rw [List.filter_eq_nil_iff.mpr ?_]
      · rfl
      · intro t _
        simp only [decide_eq_true_eq, not_and]
        intro h0 h1
        linarith
    unfold compile
    rw [hcp]
    rfl

/-- Witness for the amended C4 at `d = -1`. -/
theorem export_validation_witness :
    (exportSegments (-1) [] [] = none ↔ (-1 : ℚ) = 0) ∧
    ((-1 : ℚ) < 0 → exportSegments (-1) [] [] = some []) :=
  export_validation (-1) [] []

/-- C5 counterexample: the crop emitted by `export_with_effects`
(app.py lines 315-320) is not clamped: for the zoom
`{x: 0, y: 50, scale: 2}` (scale ≥ 1, focal percentages in `[0,100]`)
the crop x-offset is `0/100 - (1/2)/2 = -1/4 < 0`, so the crop window
leaves the frame. -/
theorem app_crop_unclamped_cex : (appCrop ⟨0, 50, 2⟩).x < 0 := by
  norm_num [appCrop]

/-- C5, amended: the clamping claim holds for the crop rectangle built
by `build_zoom_filter` (server.py lines 92-106): for every zoom with
`scale ≥ 1` and focal percentages in `[0,100]`, `cropWidth` and
`cropHeight` equal `1/scale` and the clamped position satisfies
`0 ≤ cropX`, `cropX + cropWidth ≤ 1` and symmetrically for `y`.  The
crop emitted by app.py's `export_with_effects` uses the same width but
an unclamped position. -/
theorem buildZoomCrop_clamped (z : ZoomSpec) (hs : 1 ≤ z.scale)
    (_hx0 : 0 ≤ z.x) (_hx1 : z.x ≤ 100) (_hy0 : 0 ≤ z.y) (_hy1 : z.y ≤ 100) :
    (buildZoomCrop z).w = 1 / z.scale ∧ (buildZoomCrop z).h = 1 / z.scale ∧
    (appCrop z).w = 1 / z.scale ∧ (appCrop z).h = 1 / z.scale ∧
    0 ≤ (buildZoomCrop z).x ∧ (buildZoomCrop z).x + (buildZoomCrop z).w ≤ 1 ∧
    0 ≤ (buildZoomCrop z).y ∧ (buildZoomCrop z).y + (buildZoomCrop z).h ≤ 1 := by
  have hpos : (0 : ℚ) < z.scale := lt_of_lt_of_le one_pos hs
  have hw1 : 1 / z.scale ≤ 1 := by
    rw [div_le_one hpos]
    exact hs
  refine ⟨rfl, rfl, rfl, rfl, ?_, ?_, ?_, ?_⟩
  · exact le_max_left 0 _
  · show max 0 (min _ (1 - 1 / z.scale)) + 1 / z.scale ≤ 1
    have h1 : min (z.x / 100 - 1 / z.scale / 2) (1 - 1 / z.scale) ≤ 1 - 1 / z.scale :=
      min_le_right _ _
    have h2 : max 0 (min (z.x / 100 - 1 / z.scale / 2) (1 - 1 / z.scale)) ≤
        1 - 1 / z.scale := max_le (by linarith) h1
    linarith
  · exact le_max_left 0 _
  · show max 0 (min _ (1 - 1 / z.scale)) + 1 / z.scale ≤ 1
    have h1 : min (z.y / 100 - 1 / z.scale / 2) (1 - 1 / z.scale) ≤ 1 - 1 / z.scale :=
      min_le_right _ _
    have h2 : max 0 (min (z.y / 100 - 1 / z.scale / 2) (1 - 1 / z.scale)) ≤
        1 - 1 / z.scale := max_le (by linarith) h1
    linarith

/-- Witness for the amended C5 at the counterexample zoom
`{x: 0, y: 50, scale: 2}`. -/
theorem buildZoomCrop_clamped_witness :
    (buildZoomCrop ⟨0, 50, 2⟩).w = 1 / (2 : ℚ) ∧
    (buildZoomCrop ⟨0, 50, 2⟩).h = 1 / (2 : ℚ) ∧
    (appCrop ⟨0, 50, 2⟩).w = 1 / (2 : ℚ) ∧
    (appCrop ⟨0, 50, 2⟩).h = 1 / (2 : ℚ) ∧
    0 ≤ (buildZoomCrop ⟨0, 50, 2⟩).x ∧
    (buildZoomCrop ⟨0, 50, 2⟩).x + (buildZoomCrop ⟨0, 50, 2⟩).w ≤ 1 ∧
    0 ≤ (buildZoomCrop ⟨0, 50, 2⟩).y ∧
    (buildZoomCrop ⟨0, 50, 2⟩).y + (buildZoomCrop ⟨0, 50, 2⟩).h ≤ 1 :=
  buildZoomCrop_clamped ⟨0, 50, 2⟩ (by norm_num) (by norm_num) (by norm_num)
    (by norm_num) (by norm_num)

end IVE
